import Mathlib

/-!
Verification development for the debugger visualization helpers
(`graph_viz_helper.py` and `linked_list_viz_helper.py`).

Modelling conventions (a shallow embedding of the Python source):

* Python objects reachable through pointer fields live in a heap
  `Heap := Nat → Obj`; `id(obj)` is the object's `Nat` address.
* An attribute that may be absent is an outer `Option` (`none` = the
  attribute does not exist, so `hasattr` is `false`); the inner `Option`
  models a `None`-valued attribute.  So `next : Option (Option Nat)`
  distinguishes "no `next` attribute" / "`next is None`" / "`next`
  points at address `a`".
* `val : Option (Option String)` : `none` = no `val` attribute;
  `some none` = a `val` attribute whose `str()` raises; `some (some s)` =
  `str(obj.val) = s`.
* A raised Python exception is `Except.error ()`.
* Node identifiers and dictionary keys are modelled as `String`
  (they are only ever compared and serialized through `str`).
* Python's `set` is order-unobservable here because the only reads
  are membership tests and a `sorted(...)` call, so the node set is
  modelled as a first-insertion-ordered duplicate-free list and
  `sorted(..., key=str)` as `List.insertionSort strLe`, where `strLe`
  is the lexicographic code-point order Python uses on strings (any
  stable sort of a duplicate-free collection by a linear order yields
  the same, canonical list).
* `print(...)` emission is modelled by returning the payload: returning
  `Except.ok` a payload means the framed JSON text is emitted, returning
  `Except.ok none` (for `dump_viz`) means nothing is printed.
* Functions that walk the heap return the heap alongside their result,
  so that non-mutation of caller structures is a provable frame property.
-/

/-- Directed edge of a serialized payload; `src`/`dst` are the JSON
fields named `from`/`to` in the Python source. -/
structure Edge where
  src : String
  dst : String
deriving DecidableEq, Repr

/-- Node entry of the graph payload (`{"id": ..., "label": ...}`). -/
structure GNode where
  id : String
  label : String
deriving DecidableEq, Repr

/-- Node entry of the linked-list payload (`{"id": ..., "value": ...}`). -/
structure LLNode where
  id : String
  value : String
deriving DecidableEq, Repr

/-- A value stored in a Python dict that is probed as an adjacency
mapping: either a list of identifiers or a non-iterable scalar
(`set.update` raises `TypeError` on the latter). -/
inductive GVal where
  | vlist : List String → GVal
  | vint : Int → GVal
deriving DecidableEq, Repr

/-- Whether the dict value is a non-iterable scalar. -/
def GVal.isInt : GVal → Bool
  | .vint _ => true
  | .vlist _ => false

/-- The underlying identifier list of a dict value (empty for scalars;
only ever used after the scalar case has raised). -/
def GVal.asList : GVal → List String
  | .vlist l => l
  | .vint _ => []

/-- A heap object: the recognized pointer attributes plus the optional
displayable `val`.  `children` records only `hasattr(obj, 'children')`,
since the source never dereferences `children`. -/
structure Obj where
  next : Option (Option Nat)
  neighbors : Option (Option (List Nat))
  left : Option (Option Nat)
  right : Option (Option Nat)
  children : Bool
  val : Option (Option String)

/-- The heap: total map from object address to object. -/
def Heap : Type := Nat → Obj

/-- A value bound to a variable name in the caller's scope. -/
inductive PyVal where
  | dict : List (String × GVal) → PyVal
  | obj : Nat → PyVal
  | pylist : List String → PyVal
  | pyset : List String → PyVal
  | int : Int → PyVal

/-- The string form of a Python object address, `str(id(obj))`. -/
def idStr (a : Nat) : String := toString a

/-- Linked-list payload (`diagramType = "linked-list"`); every marker
key is always present, matching the fixed JSON schema. -/
structure LLPayload where
  nodes : List LLNode
  nextPointers : List Edge
  cycleDetected : Bool
  meetNode : Option String
  cycleEdge : Option Edge
deriving DecidableEq, Repr

/-- Graph payload (`diagramType = "graph"`). -/
structure GraphPayload where
  nodes : List GNode
  edges : List Edge
  visitedOrder : List String
  revisitedNodes : List String
  cycleEdges : List Edge
  truncated : Bool
deriving DecidableEq, Repr

/-- State of the linked-list walk in `print_linked_list_viz`: the heap
(read but never written), the current and previous node, the `seen` set
of node-id strings, and the accumulated `nodes` / `pointers` lists. -/
structure LLSt where
  heap : Heap
  curr : Option Nat
  prev : Option Nat
  seen : List String
  nodes : List LLNode
  ptrs : List Edge

/-- One `str(curr.val)` evaluation inside `print_linked_list_viz`:
raises (`AttributeError` / failing `__str__`) unless the attribute is
present with a stringifiable value. -/
def llValStr (o : Obj) : Except Unit String :=
  match o.val with
  | none => .error ()
  | some none => .error ()
  | some (some s) => .ok s

/-- The `while curr and steps < max_steps` loop of
`print_linked_list_viz`; the fuel is `max_steps - steps`, so fuel `0`
is exactly the `steps < max_steps` guard failing.  On a revisited
node-id it appends the closing pointer from `prev` and stops; otherwise
it records the node, the outgoing pointer when `curr.next` is truthy,
and advances. -/
def llLoop : Nat → LLSt → Except Unit LLSt
  | 0, st => .ok st
  | fuel + 1, st =>
    match st.curr with
    | none => .ok st
    | some c =>
      let node_id := idStr c
      if node_id ∈ st.seen then
        match st.prev with
        | none => .error ()
        | some p => .ok { st with ptrs := st.ptrs ++ [Edge.mk (idStr p) node_id] }
      else
        match llValStr (st.heap c) with
        | .error e => .error e
        | .ok v =>
          let st1 := { st with
            seen := node_id :: st.seen,
            nodes := st.nodes ++ [LLNode.mk node_id v] }
          match (st.heap c).next with
          | none => .error ()
          | some none =>
            llLoop fuel { st1 with curr := none, prev := some c }
          | some (some nxt) =>
            llLoop fuel { st1 with
              curr := some nxt, prev := some c,
              ptrs := st1.ptrs ++ [Edge.mk node_id (idStr nxt)] }

/-- The linked-list serializer `print_linked_list_viz(head,
visited_nodes, cycle_node, cycle_edge, meet_node)`.  The walk uses the
fixed step ceiling `max_steps = 100`.  `visited_nodes` is accepted and
ignored, exactly as in the source.  The emitted payload is returned
together with the (unchanged) heap. -/
def print_linked_list_viz (heap : Heap) (head : Option Nat)
    (visited_nodes : Option (List String)) (cycle_node : Option Nat)
    (cycle_edge : Option Edge) (meet_node : Option Nat) :
    Except Unit (LLPayload × Heap) :=
  let _ := visited_nodes
  match llLoop 100 ⟨heap, head, none, [], [], []⟩ with
  | .error e => .error e
  | .ok st =>
    .ok ({ nodes := st.nodes, nextPointers := st.ptrs,
           cycleDetected := cycle_node.isSome,
           meetNode := meet_node.map idStr,
           cycleEdge := cycle_edge }, st.heap)

/-- Lexicographic (code-point) comparison of character lists, the
order Python uses to compare strings. -/
def charsLe : List Char → List Char → Bool
  | [], _ => true
  | _ :: _, [] => false
  | a :: as, b :: bs => if a = b then charsLe as bs else decide (a < b)

/-- Python's string order `a <= b`: lexicographic by code points. -/
def strLeB (a b : String) : Bool := charsLe a.data b.data

/-- The string order as a relation, for sorting. -/
def strLe (a b : String) : Prop := strLeB a b = true

instance : DecidableRel strLe := fun a b =>
  inferInstanceAs (Decidable (strLeB a b = true))

/-- Insertion into the modelled Python set, keeping first-insertion
order and no duplicates. -/
def addNew (acc : List String) (x : String) : List String :=
  if x ∈ acc then acc else acc ++ [x]

/-- The `unique_nodes` set of `print_graph_viz`: all keys, then every
value sequence folded in via `set.update`; a non-iterable value raises
`TypeError`. -/
def collectUnique (adj : List (String × GVal)) : Except Unit (List String) :=
  if adj.any (fun p => p.2.isInt) then .error ()
  else .ok ((adj.map Prod.fst ++ (adj.map (fun p => p.2.asList)).flatten).foldl addNew [])

/-- The edge list of `print_graph_viz`: keys in dict order, each
neighbor sequence in order, an edge kept only when both endpoints are
members of `unique_nodes`. -/
def buildEdges (adj : List (String × GVal)) (unique : List String) : List Edge :=
  (adj.map (fun p =>
    if p.1 ∈ unique then
      (p.2.asList.filter (fun v => v ∈ unique)).map (fun v => Edge.mk p.1 v)
    else [])).flatten

/-- The graph serializer `print_graph_viz(adjacency_list, visited_order,
revisited_nodes, cycle_edges, truncated)`.  Node list is the sorted
(by string form) `unique_nodes` set; markers are filtered against the
node set; `cycle_edges or []` passes the caller's list through. -/
def print_graph_viz (adj : List (String × GVal)) (vo : Option (List String))
    (rn : Option (List String)) (ce : Option (List Edge)) (t : Bool) :
    Except Unit GraphPayload :=
  match collectUnique adj with
  | .error e => .error e
  | .ok unique =>
    let sortedNodes := unique.insertionSort strLe
    .ok { nodes := sortedNodes.map (fun n => ⟨n, n⟩),
          edges := buildEdges adj unique,
          visitedOrder := (vo.getD []).filter (fun x => x ∈ unique),
          revisitedNodes := (rn.getD []).filter (fun x => x ∈ unique),
          cycleEdges := ce.getD [],
          truncated := t }

/-- Heuristic 1 of `dump_viz`: try the canonical graph names in order;
a name bound to a dict wins (no check on the dict's values), a name
bound to anything else is skipped and the scan continues. -/
def tryGraphNames (scope : List (String × PyVal)) :
    List String → Option (List (String × GVal))
  | [] => none
  | n :: rest =>
    match scope.lookup n with
    | some (.dict d) => some d
    | _ => tryGraphNames scope rest

/-- The name-based step of the Structure Discoverer. -/
def findByName (scope : List (String × PyVal)) : Option (List (String × GVal)) :=
  tryGraphNames scope ["graph", "adj", "adjacency_list", "g"]

/-- Whether the first value of a dict is a list
(`isinstance(next(iter(val.values())), list)`). -/
def firstValIsList (d : List (String × GVal)) : Bool :=
  match d.head? with
  | some (_, .vlist _) => true
  | _ => false

/-- Heuristic 2 of `dump_viz`: first nonempty dict whose first value is
a list; a nonempty dict whose first value is not a list is skipped. -/
def findByShape : List (String × PyVal) → Option (List (String × GVal))
  | [] => none
  | (_, .dict d) :: rest =>
    if !d.isEmpty && firstValIsList d then some d
    else findByShape rest
  | _ :: rest => findByShape rest

/-- Python truthiness of the `adjacency_list` variable: `None` and the
empty dict are falsy. -/
def pyFalsyDict (o : Option (List (String × GVal))) : Bool :=
  match o with
  | none => true
  | some d => d.isEmpty

/-- Whether an object exposes any recognized neighbor attribute
(`hasattr` probes of heuristic 2's root scan). -/
def hasNodeAttrs (o : Obj) : Bool :=
  o.next.isSome || o.neighbors.isSome || o.children ||
    o.left.isSome || o.right.isSome

/-- Whether a scope name is one of the canonical root names. -/
def isRootName (n : String) : Bool :=
  n = "head" || n = "root" || n = "start"

/-- The root-candidate collection of `dump_viz`: scope entries with a
neighbor attribute; canonical root names are inserted at position `0`,
everything else appended. -/
def collectRoots (scope : List (String × PyVal)) (heap : Heap) : List Nat :=
  scope.foldl (fun roots p =>
    match p.2 with
    | .obj a =>
      if hasNodeAttrs (heap a) then
        if isRootName p.1 then a :: roots else roots ++ [a]
      else roots
    | _ => roots) []

/-- Outgoing references enumerated for a dequeued object, in the fixed
source order: truthy `next`, then `neighbors` when it is a list, then
truthy `left`, then truthy `right`. -/
def outRefs (o : Obj) : List Nat :=
  (match o.next with | some (some a) => [a] | _ => []) ++
  (match o.neighbors with | some (some l) => l | _ => []) ++
  (match o.left with | some (some a) => [a] | _ => []) ++
  (match o.right with | some (some a) => [a] | _ => [])

/-- Node identity inside the pointer walk:
`str(curr.val) if hasattr(curr, 'val') else str(id(curr))`. -/
def nodeIdOf (heap : Heap) (a : Nat) : Except Unit String :=
  match (heap a).val with
  | none => .ok (idStr a)
  | some none => .error ()
  | some (some s) => .ok s

/-- Ensure a key exists in `curr_adj`
(`if curr_id not in curr_adj: curr_adj[curr_id] = []`). -/
def ensureKey (adj : List (String × List String)) (k : String) :
    List (String × List String) :=
  if adj.any (fun p => p.1 = k) then adj else adj ++ [(k, [])]

/-- Append a neighbor id to the entry of `k`
(`curr_adj[curr_id].append(n_id)`). -/
def appendVal (adj : List (String × List String)) (k v : String) :
    List (String × List String) :=
  adj.map (fun p => if p.1 = k then (p.1, p.2 ++ [v]) else p)

/-- State of the bounded pointer walk of `dump_viz`: heap (read-only),
FIFO queue of addresses, `seen_objs` keyed by address, the accumulated
`curr_adj`, and the `is_truncated` flag. -/
structure BfsSt where
  heap : Heap
  queue : List Nat
  seen : List Nat
  adj : List (String × List String)
  trunc : Bool

/-- The node ceiling of the pointer walk (`MAX_NODES`). -/
def MAX_NODES : Nat := 20

/-- The inner `for n in neighbors` loop: record the edge, then enqueue
the neighbor unless already seen; once `len(seen_objs) >= MAX_NODES`
set `is_truncated` and skip the enqueue. -/
def visitNeighbors (cid : String) : List Nat → BfsSt → Except Unit BfsSt
  | [], st => .ok st
  | n :: ns, st =>
    match nodeIdOf st.heap n with
    | .error e => .error e
    | .ok nid =>
      let st1 := { st with adj := appendVal st.adj cid nid }
      let st2 :=
        if n ∈ st1.seen then st1
        else if MAX_NODES ≤ st1.seen.length then { st1 with trunc := true }
        else { st1 with seen := st1.seen ++ [n], queue := st1.queue ++ [n] }
      visitNeighbors cid ns st2

/-- The `while queue and len(seen_objs) <= MAX_NODES` loop of the
pointer walk.  Fuel `MAX_NODES` is enough (the loop runs at most
`MAX_NODES` iterations, proven as a stabilization theorem below), and
exhausted fuel returns the state exactly like a failed guard. -/
def bfsLoop : Nat → BfsSt → Except Unit BfsSt
  | 0, st => .ok st
  | fuel + 1, st =>
    match st.queue with
    | [] => .ok st
    | c :: rest =>
      if st.seen.length ≤ MAX_NODES then
        match nodeIdOf st.heap c with
        | .error e => .error e
        | .ok cid =>
          match visitNeighbors cid (outRefs (st.heap c))
              { st with queue := rest, adj := ensureKey st.adj cid } with
          | .error e => .error e
          | .ok st2 => bfsLoop fuel st2
      else .ok st

/-- Heuristic for the `visitedOrder` marker: first of `visited`, `path`,
`seen` bound to a list or set. -/
def tryVisitedNames (scope : List (String × PyVal)) :
    List String → Option (List String)
  | [] => none
  | n :: rest =>
    match scope.lookup n with
    | some (.pylist l) => some l
    | some (.pyset l) => some l
    | _ => tryVisitedNames scope rest

/-- The visited-hint scan of `dump_viz`. -/
def visitedHint (scope : List (String × PyVal)) : Option (List String) :=
  tryVisitedNames scope ["visited", "path", "seen"]

/-- Turn the pointer walk's `curr_adj` into a dict value. -/
def toGValDict (adj : List (String × List String)) : List (String × GVal) :=
  adj.map (fun p => (p.1, GVal.vlist p.2))

/-- The value of the `adjacency_list` variable after heuristics 1 and 2
of `dump_viz`: heuristic 2 runs only when heuristic 1 left a falsy
value, and leaves heuristic 1's value in place when it finds nothing. -/
def discoveredDict (scope : List (String × PyVal)) :
    Option (List (String × GVal)) :=
  if pyFalsyDict (findByName scope) then
    match findByShape scope with
    | some d => some d
    | none => findByName scope
  else findByName scope

/-- Result of the discovery phase of `dump_viz` (heuristic 3 included):
the `adjacency_list` variable, the `is_truncated` flag, and the heap as
left by the walk. -/
def discover (scope : List (String × PyVal)) (heap : Heap) :
    Except Unit (Option (List (String × GVal)) × Bool × Heap) :=
  if pyFalsyDict (discoveredDict scope) then
    match collectRoots scope heap with
    | [] => .ok (discoveredDict scope, false, heap)
    | r :: _ =>
      match bfsLoop MAX_NODES ⟨heap, [r], [r], [], false⟩ with
      | .error e => .error e
      | .ok st => .ok (some (toGValDict st.adj), st.trunc, st.heap)
  else .ok (discoveredDict scope, false, heap)

/-- The auto-discovery entry point `dump_viz(locals_dict)`: discovery,
visited-hint scan, then the guarded `try: print_graph_viz(...)
except: pass`.  Result `none` means no payload text was emitted; the
heap is returned for the frame property. -/
def dump_viz (scope : List (String × PyVal)) (heap : Heap) :
    Except Unit (Option GraphPayload × Heap) :=
  match discover scope heap with
  | .error e => .error e
  | .ok (adjOpt, trunc, h) =>
    let vo := visitedHint scope
    if pyFalsyDict adjOpt then .ok (none, h)
    else
      match adjOpt with
      | none => .ok (none, h)
      | some d =>
        match print_graph_viz d vo none none trunc with
        | .error _ => .ok (none, h)
        | .ok p => .ok (some p, h)

/-! Concrete fixtures and claim-level predicates. -/

/-- A heap object that is a plain chain node: a `next` attribute and a
stringifiable `val`, no other neighbor attributes. -/
def chainObj (nx : Option Nat) (v : String) : Obj :=
  ⟨some nx, none, none, none, false, some (some v)⟩

/-- A heap object with no recognized attributes at all. -/
def blankObj : Obj := ⟨none, none, none, none, false, none⟩

/-- A heap whose every address holds an attribute-less object. -/
def blankHeap : Heap := fun _ => blankObj

/-- Straight 25-node chain at addresses `0..24` with values
`"v0".."v24"`. -/
def heap25 : Heap := fun a =>
  if a < 24 then chainObj (some (a + 1)) ("v" ++ toString a)
  else if a = 24 then chainObj none ("v" ++ toString a)
  else blankObj

/-- Straight 101-node chain at addresses `0..100`. -/
def heap101 : Heap := fun a =>
  if a < 100 then chainObj (some (a + 1)) ("w" ++ toString a)
  else if a = 100 then chainObj none ("w" ++ toString a)
  else blankObj

/-- Three-node cyclic chain `0 → 1 → 2 → 0` with values `"c0".."c2"`. -/
def heapCyc : Heap := fun a =>
  if a = 0 then chainObj (some 1) "c0"
  else if a = 1 then chainObj (some 2) "c1"
  else if a = 2 then chainObj (some 0) "c2"
  else blankObj

/-- One-node chain (a single node with `next = None`). -/
def heapOne : Heap := fun a =>
  if a = 0 then chainObj none "solo" else blankObj

/-- A heap whose node at address `0` has a `val` attribute whose
`str()` raises, and `next = None`. -/
def heapBadVal : Heap := fun a =>
  if a = 0 then ⟨some none, none, none, none, false, some none⟩ else blankObj

/-- Whether every value of a dict is a sequence — the condition the
spec claims heuristic 1 checks ("a mapping whose values are
sequences"). -/
def allValuesAreSequences (d : List (String × GVal)) : Bool :=
  d.all (fun p => match p.2 with
    | .vlist _ => true
    | .vint _ => false)

/-- Canonical-named root candidates of a scope, in scope order. -/
def canonRoots (scope : List (String × PyVal)) (heap : Heap) : List Nat :=
  scope.filterMap (fun p =>
    match p.2 with
    | .obj a => if hasNodeAttrs (heap a) && isRootName p.1 then some a else none
    | _ => none)

/-- Non-canonical root candidates of a scope, in scope order. -/
def otherRoots (scope : List (String × PyVal)) (heap : Heap) : List Nat :=
  scope.filterMap (fun p =>
    match p.2 with
    | .obj a => if hasNodeAttrs (heap a) && !isRootName p.1 then some a else none
    | _ => none)

/-- Successor index along a chain of `m` nodes whose last node points
back to position `k`. -/
def nxtIdx (m k i : Nat) : Nat := if i + 1 = m then k else i + 1

/-- The heap holds a pointer chain of `m` nodes at addresses
`pos 0, …, pos (m-1)`, every node carrying stringifiable value `v i`,
and node `m-1` pointing back to node `k` (a cycle). -/
def cyclicChain (heap : Heap) (pos : Nat → Nat) (v : Nat → String)
    (m k : Nat) : Prop :=
  ∀ i, i < m → (heap (pos i)).val = some (some (v i)) ∧
    (heap (pos i)).next = some (some (pos (nxtIdx m k i)))

/-- The heap holds a straight (acyclic) pointer chain of `25` nodes at
addresses `pos 0, …, pos 24` with values `v 0, …, v 24`, each node
exposing only the `next` attribute besides `val`. -/
def straightChain25 (heap : Heap) (pos : Nat → Nat) (v : Nat → String) : Prop :=
  ∀ i, i < 25 → (heap (pos i)).val = some (some (v i)) ∧
    (heap (pos i)).neighbors = none ∧ (heap (pos i)).left = none ∧
    (heap (pos i)).right = none ∧
    (heap (pos i)).next = (if i < 24 then some (some (pos (i + 1))) else some none)

/-- Walk state of the linked-list traversal after `j` completed steps
along a cyclic chain. -/
def llStAt (heap : Heap) (pos : Nat → Nat) (v : Nat → String)
    (m k j : Nat) : LLSt :=
  ⟨heap,
   some (pos (if j = m then k else j)),
   if j = 0 then none else some (pos (j - 1)),
   ((List.range j).map (fun i => idStr (pos i))).reverse,
   (List.range j).map (fun i => LLNode.mk (idStr (pos i)) (v i)),
   (List.range j).map (fun i => Edge.mk (idStr (pos i)) (idStr (pos (nxtIdx m k i))))⟩

/-- Walk state of the bounded pointer walk after `j` completed
iterations along a straight chain. -/
def bfsStAt (heap : Heap) (pos : Nat → Nat) (v : Nat → String) (j : Nat) : BfsSt :=
  ⟨heap,
   [pos j],
   (List.range (j + 1)).map pos,
   (List.range j).map (fun i => (v i, [v (i + 1)])),
   false⟩

/-! Helper lemmas. -/

theorem collectRoots_foldl_eq (heap : Heap) :
    ∀ (l : List (String × PyVal)) (cs ns : List Nat),
    l.foldl (fun roots p =>
      match p.2 with
      | .obj a =>
        if hasNodeAttrs (heap a) then
          if isRootName p.1 then a :: roots else roots ++ [a]
        else roots
      | _ => roots) (cs.reverse ++ ns) =
      (cs ++ canonRoots l heap).reverse ++ (ns ++ otherRoots l heap) := by
  intro l
  induction l with
  | nil => simp [canonRoots, otherRoots]
  | cons p l ih =>
    intro cs ns
    rw [List.foldl_cons]
    match hp : p.2 with
    | .obj a =>
      simp only [hp]
      by_cases hattr : hasNodeAttrs (heap a) = true
      · by_cases hroot : isRootName p.1 = true
        · rw [if_pos hattr, if_pos hroot]
          have step : (a :: (cs.reverse ++ ns)) = (cs ++ [a]).reverse ++ ns := by
            simp
          rw [step, ih (cs ++ [a]) ns]
          simp [canonRoots, otherRoots, hp, hattr, hroot]
        · rw [if_pos hattr, if_neg hroot]
          have step : ((cs.reverse ++ ns) ++ [a]) = cs.reverse ++ (ns ++ [a]) := by
            simp
          rw [step, ih cs (ns ++ [a])]
          simp [canonRoots, otherRoots, hp, hattr, hroot]
      · rw [if_neg hattr]
        rw [ih cs ns]
        simp [canonRoots, otherRoots, hp, hattr]
    | .dict d =>
      simp only [hp]
      rw [ih cs ns]
      simp [canonRoots, otherRoots, hp]
    | .pylist xs =>
      simp only [hp]
      rw [ih cs ns]
      simp [canonRoots, otherRoots, hp]
    | .pyset xs =>
      simp only [hp]
      rw [ih cs ns]
      simp [canonRoots, otherRoots, hp]
    | .int z =>
      simp only [hp]
      rw [ih cs ns]
      simp [canonRoots, otherRoots, hp]

/-! Claim C10. -/

/-- C10: calling `print_linked_list_viz` with `head = None` still emits
a complete payload: empty `nodes` and `nextPointers`, all marker keys
present, `cycleDetected` true exactly when a `cycle_node` argument was
supplied. -/
theorem c10_empty_head_payload (heap : Heap) (v : Option (List String))
    (cn : Option Nat) (ce : Option Edge) (mn : Option Nat) :
    print_linked_list_viz heap none v cn ce mn =
      .ok ({ nodes := [], nextPointers := [], cycleDetected := cn.isSome,
             meetNode := mn.map idStr, cycleEdge := ce }, heap) := rfl

/-! Claim C4. -/

/-- C4 counterexample: a scope whose `graph` name is bound to a dict
holding a non-sequence value; the name-based step selects it anyway,
although it is not a mapping-of-sequences. -/
theorem c4_name_step_no_sequence_check :
    findByName [("graph", PyVal.dict [("x", GVal.vint 1)])] =
      some [("x", GVal.vint 1)] ∧
    allValuesAreSequences [("x", GVal.vint 1)] = false := by
  exact ⟨rfl, rfl⟩

theorem tryGraphNames_hit (scope : List (String × PyVal)) (n : String)
    (rest : List String) (d : List (String × GVal))
    (h : scope.lookup n = some (PyVal.dict d)) :
    tryGraphNames scope (n :: rest) = some d := by
  unfold tryGraphNames
  rw [h]

theorem tryGraphNames_skip (scope : List (String × PyVal)) (n : String)
    (rest : List String)
    (h : ∀ d, scope.lookup n ≠ some (PyVal.dict d)) :
    tryGraphNames scope (n :: rest) = tryGraphNames scope rest := by
  conv_lhs => unfold tryGraphNames
  cases hl : scope.lookup n with
  | none => rfl
  | some val =>
    cases val with
    | dict d => exact absurd hl (h d)
    | obj a => rfl
    | pylist l => rfl
    | pyset l => rfl
    | int z => rfl

/-- C4 amended: the name-based step tries `graph`, `adj`,
`adjacency_list`, `g` in that order and selects the first name bound to
a dict — any dict, with no mapping-of-sequences condition; when none of
the four names is bound to a dict it selects nothing. -/
theorem c4_name_step_selects_any_dict (scope : List (String × PyVal)) :
    (∀ d, scope.lookup "graph" = some (PyVal.dict d) →
       findByName scope = some d) ∧
    ((∀ d, scope.lookup "graph" ≠ some (PyVal.dict d)) →
      ∀ d, scope.lookup "adj" = some (PyVal.dict d) →
        findByName scope = some d) ∧
    ((∀ d, scope.lookup "graph" ≠ some (PyVal.dict d)) →
      (∀ d, scope.lookup "adj" ≠ some (PyVal.dict d)) →
      ∀ d, scope.lookup "adjacency_list" = some (PyVal.dict d) →
        findByName scope = some d) ∧
    ((∀ d, scope.lookup "graph" ≠ some (PyVal.dict d)) →
      (∀ d, scope.lookup "adj" ≠ some (PyVal.dict d)) →
      (∀ d, scope.lookup "adjacency_list" ≠ some (PyVal.dict d)) →
      ∀ d, scope.lookup "g" = some (PyVal.dict d) →
        findByName scope = some d) ∧
    ((∀ d, scope.lookup "graph" ≠ some (PyVal.dict d)) →
      (∀ d, scope.lookup "adj" ≠ some (PyVal.dict d)) →
      (∀ d, scope.lookup "adjacency_list" ≠ some (PyVal.dict d)) →
      (∀ d, scope.lookup "g" ≠ some (PyVal.dict d)) →
      findByName scope = none) := by
  refine ⟨?_, ?_, ?_, ?_, ?_⟩
  · intro d h
    exact tryGraphNames_hit scope _ _ d h
  · intro hg d h
    unfold findByName
    rw [tryGraphNames_skip scope _ _ hg, tryGraphNames_hit scope _ _ d h]
  · intro hg ha d h
    unfold findByName
    rw [tryGraphNames_skip scope _ _ hg, tryGraphNames_skip scope _ _ ha,
      tryGraphNames_hit scope _ _ d h]
  · intro hg ha hal d h
    unfold findByName
    rw [tryGraphNames_skip scope _ _ hg, tryGraphNames_skip scope _ _ ha,
      tryGraphNames_skip scope _ _ hal, tryGraphNames_hit scope _ _ d h]
  · intro hg ha hal hgg
    unfold findByName
    rw [tryGraphNames_skip scope _ _ hg, tryGraphNames_skip scope _ _ ha,
      tryGraphNames_skip scope _ _ hal, tryGraphNames_skip scope _ _ hgg]
    rfl

/-- C4 witness: the amended theorem applied to a scope where `graph` is
bound to a non-dict and `adj` to a dict with a non-sequence value: the
ordered check skips `graph` and selects the `adj` dict. -/
theorem c4_witness :
    findByName [("graph", PyVal.int 5),
      ("adj", PyVal.dict [("y", GVal.vint 7)])] =
      some [("y", GVal.vint 7)] ∧
    allValuesAreSequences [("y", GVal.vint 7)] = false :=
  ⟨(c4_name_step_selects_any_dict
      [("graph", PyVal.int 5), ("adj", PyVal.dict [("y", GVal.vint 7)])]).2.1
    (by intro d h; simp at h) [("y", GVal.vint 7)] rfl, rfl⟩

/-! Claim C5. -/

/-- C5 counterexample: scope enumerates `head` (address 0) before
`root` (address 1), both canonical root names; the collected root list
is `[1, 0]`, so the traverser is handed address `1`, not the
earliest-enumerated canonical candidate `0`. -/
theorem c5_canonical_order_reversed :
    collectRoots [("head", PyVal.obj 0), ("root", PyVal.obj 1)]
        (fun _ => chainObj none "x") = [1, 0] ∧
    ([1, 0] : List Nat).head? ≠ some 0 := by
  exact ⟨rfl, by decide⟩

/-- C5 amended: candidates bound to canonical root names come before
all other candidates, but the canonical group appears in reverse
scope-enumeration order (each canonical hit is inserted at position 0),
while non-canonical candidates keep their relative order; hence the
latest-enumerated canonical candidate is handed to the traverser. -/
theorem c5_root_order (scope : List (String × PyVal)) (heap : Heap) :
    collectRoots scope heap =
      (canonRoots scope heap).reverse ++ otherRoots scope heap := by
  have h := collectRoots_foldl_eq heap scope [] []
  simpa [collectRoots] using h

/-! Claim C7. -/

/-- C7 counterexample: a single node whose `val` cannot be stringified
makes `print_linked_list_viz` raise to its caller — the failure is not
swallowed and it is not the case that no payload implies no fault. -/
theorem c7_list_helper_raises :
    print_linked_list_viz heapBadVal (some 0) none none none none =
      .error () := rfl

/-- C7 amended: only the serialization call inside `dump_viz` is
guarded: whenever the discovery heuristics (name hint or shape scan)
resolve a nonempty dict, `dump_viz` never raises, and if
`print_graph_viz` fails on that dict the failure is swallowed and no
payload is emitted.  (The pointer-walk path can only hand
`print_graph_viz` lists of strings, which never fail to serialize.)
`print_linked_list_viz` has no such guard and propagates failures (see
the counterexample). -/
theorem c7_dump_viz_swallows_serializer_failure
    (scope : List (String × PyVal)) (heap : Heap) (d : List (String × GVal))
    (h1 : discoveredDict scope = some d) (h2 : d ≠ []) :
    (∃ r, dump_viz scope heap = .ok (r, heap)) ∧
    (print_graph_viz d (visitedHint scope) none none false = .error () →
      dump_viz scope heap = .ok (none, heap)) := by
  have hfalsy : pyFalsyDict (some d) = false := by
    cases d with
    | nil => exact absurd rfl h2
    | cons x xs => rfl
  have hdisc : discover scope heap = .ok (some d, false, heap) := by
    unfold discover
    rw [h1, hfalsy]
    simp
  constructor
  · unfold dump_viz
    rw [hdisc]
    simp only [hfalsy, Bool.false_eq_true, if_false]
    cases hpg : print_graph_viz d (visitedHint scope) none none false with
    | error e => exact ⟨none, rfl⟩
    | ok p => exact ⟨some p, rfl⟩
  · intro hpg
    unfold dump_viz
    rw [hdisc]
    simp only [hfalsy, Bool.false_eq_true, if_false, hpg]

/-- C7 witness: the amended theorem applied to a scope with no
name-hinted dict, where the shape heuristic picks a dict whose first
value is a list but whose second value is non-iterable; `print_graph_viz`
raises on it, the failure is swallowed, and nothing is printed. -/
theorem c7_witness :
    dump_viz [("mydata", PyVal.dict
        [("x", GVal.vlist ["a"]), ("y", GVal.vint 1)])] blankHeap =
      .ok (none, blankHeap) :=
  (c7_dump_viz_swallows_serializer_failure
    [("mydata", PyVal.dict [("x", GVal.vlist ["a"]), ("y", GVal.vint 1)])]
    blankHeap
    [("x", GVal.vlist ["a"]), ("y", GVal.vint 1)] rfl (by decide)).2 rfl

/-! Claim C9 frame lemmas. -/

theorem visitNeighbors_heap_eq (cid : String) :
    ∀ (ns : List Nat) (st st' : BfsSt),
    visitNeighbors cid ns st = .ok st' → st'.heap = st.heap := by
  intro ns
  induction ns with
  | nil =>
    intro st st' h
    cases h
    rfl
  | cons n ns ih =>
    intro st st' h
    unfold visitNeighbors at h
    cases hnid : nodeIdOf st.heap n with
    | error e => rw [hnid] at h; cases h
    | ok nid =>
      rw [hnid] at h
      dsimp at h
      split at h
      · exact (ih _ _ h).trans rfl
      · split at h
        · exact (ih _ _ h).trans rfl
        · exact (ih _ _ h).trans rfl

theorem bfsLoop_heap_eq :
    ∀ (fuel : Nat) (st st' : BfsSt),
    bfsLoop fuel st = .ok st' → st'.heap = st.heap := by
  intro fuel
  induction fuel with
  | zero =>
    intro st st' h
    cases h
    rfl
  | succ fuel ih =>
    intro st st' h
    unfold bfsLoop at h
    cases hq : st.queue with
    | nil => rw [hq] at h; cases h; rfl
    | cons c rest =>
      rw [hq] at h
      dsimp at h
      split at h
      · cases hnid : nodeIdOf st.heap c with
        | error e => rw [hnid] at h; cases h
        | ok cid =>
          rw [hnid] at h
          dsimp at h
          cases hvn : visitNeighbors cid (outRefs (st.heap c))
              { st with queue := rest, adj := ensureKey st.adj cid } with
          | error e => rw [hvn] at h; cases h
          | ok st2 =>
            rw [hvn] at h
            have h2 := visitNeighbors_heap_eq _ _ _ _ hvn
            exact (ih _ _ h).trans (h2.trans rfl)
      · cases h; rfl

theorem llLoop_heap_eq :
    ∀ (fuel : Nat) (st st' : LLSt),
    llLoop fuel st = .ok st' → st'.heap = st.heap := by
  intro fuel
  induction fuel with
  | zero =>
    intro st st' h
    cases h
    rfl
  | succ fuel ih =>
    intro st st' h
    unfold llLoop at h
    cases hc : st.curr with
    | none => rw [hc] at h; cases h; rfl
    | some c =>
      rw [hc] at h
      dsimp at h
      split at h
      · cases hp : st.prev with
        | none => rw [hp] at h; contradiction
        | some p => rw [hp] at h; cases h; rfl
      · cases hv : llValStr (st.heap c) with
        | error e => rw [hv] at h; cases h
        | ok v =>
          rw [hv] at h
          dsimp at h
          cases hn : (st.heap c).next with
          | none => rw [hn] at h; cases h
          | some o =>
            rw [hn] at h
            cases o with
            | none =>
              dsimp at h
              exact (ih _ _ h).trans rfl
            | some nxt =>
              dsimp at h
              exact (ih _ _ h).trans rfl

theorem discover_heap_eq (scope : List (String × PyVal)) (heap : Heap)
    (a : Option (List (String × GVal))) (t : Bool) (h : Heap)
    (hd : discover scope heap = .ok (a, t, h)) : h = heap := by
  unfold discover at hd
  by_cases hf : pyFalsyDict (discoveredDict scope) = true
  · rw [if_pos hf] at hd
    cases hr : collectRoots scope heap with
    | nil => rw [hr] at hd; cases hd; rfl
    | cons r rs =>
      rw [hr] at hd
      dsimp at hd
      cases hb : bfsLoop MAX_NODES ⟨heap, [r], [r], [], false⟩ with
      | error e => rw [hb] at hd; cases hd
      | ok st =>
        rw [hb] at hd
        cases hd
        exact bfsLoop_heap_eq _ _ _ hb
  · rw [if_neg hf] at hd
    cases hd
    rfl

/-- C9: the operations never mutate caller structures.  In the
embedding every caller-visible structure (the scope, dicts, marker
lists) is an immutable value, and the heap of traversed node objects is
threaded through both traversals; both entry points return the heap
they were given, unchanged. -/
theorem c9_no_mutation :
    (∀ (scope : List (String × PyVal)) (heap : Heap)
       (r : Option GraphPayload) (h : Heap),
       dump_viz scope heap = .ok (r, h) → h = heap) ∧
    (∀ (heap : Heap) (hd : Option Nat) (v : Option (List String))
       (cn : Option Nat) (ce : Option Edge) (mn : Option Nat)
       (p : LLPayload) (h : Heap),
       print_linked_list_viz heap hd v cn ce mn = .ok (p, h) → h = heap) := by
  constructor
  · intro scope heap r h hok
    unfold dump_viz at hok
    cases hd : discover scope heap with
    | error e => rw [hd] at hok; cases hok
    | ok res =>
      obtain ⟨a, t, h0⟩ := res
      rw [hd] at hok
      have hh0 : h0 = heap := discover_heap_eq _ _ _ _ _ hd
      dsimp at hok
      split at hok
      · cases hok; exact hh0
      · split at hok
        · cases hok; exact hh0
        · split at hok
          · cases hok; exact hh0
          · cases hok; exact hh0
  · intro heap hd v cn ce mn p h hok
    unfold print_linked_list_viz at hok
    cases hl : llLoop 100 ⟨heap, hd, none, [], [], []⟩ with
    | error e => rw [hl] at hok; cases hok
    | ok st =>
      rw [hl] at hok
      cases hok
      exact llLoop_heap_eq _ _ _ hl

/-- C9 witness: the frame theorem applied to a concrete one-node
chain. -/
theorem c9_witness : heapOne = heapOne ∧
    print_linked_list_viz heapOne (some 0) none none none none =
      .ok ({ nodes := [LLNode.mk "0" "solo"], nextPointers := [],
             cycleDetected := false, meetNode := none,
             cycleEdge := none }, heapOne) :=
  ⟨c9_no_mutation.2 heapOne (some 0) none none none none _ heapOne rfl, rfl⟩

/-! Claim C8. -/

/-- Loop variant of the pointer walk: pending queue entries plus the
remaining room under the node ceiling. -/
def bfsMeasure (st : BfsSt) : Nat :=
  st.queue.length + (MAX_NODES - st.seen.length)

theorem visitNeighbors_measure (cid : String) :
    ∀ (ns : List Nat) (st st' : BfsSt), st.seen.length ≤ MAX_NODES →
    visitNeighbors cid ns st = .ok st' →
    st'.seen.length ≤ MAX_NODES ∧ bfsMeasure st' ≤ bfsMeasure st := by
  intro ns
  induction ns with
  | nil =>
    intro st st' hs h
    cases h
    exact ⟨hs, le_refl _⟩
  | cons n ns ih =>
    intro st st' hs h
    unfold visitNeighbors at h
    cases hnid : nodeIdOf st.heap n with
    | error e => rw [hnid] at h; cases h
    | ok nid =>
      rw [hnid] at h
      dsimp at h
      split at h
      · have := ih _ _ (by exact hs) h
        exact ⟨this.1, this.2.trans (le_of_eq rfl)⟩
      · split at h
        next hfull =>
          have := ih _ _ (by exact hs) h
          exact ⟨this.1, this.2.trans (le_of_eq rfl)⟩
        next hfull =>
          have hlt : st.seen.length < MAX_NODES := by
            simpa using Nat.lt_of_not_le hfull
          have hs2 : (st.seen ++ [n]).length ≤ MAX_NODES := by
            simp
            omega
          have := ih _ _ (by simpa using hs2) h
          refine ⟨this.1, this.2.trans ?_⟩
          simp [bfsMeasure]
          omega

theorem bfsLoop_empty_queue (st : BfsSt) (hq : st.queue = []) :
    ∀ fuel, bfsLoop fuel st = .ok st := by
  intro fuel
  cases fuel with
  | zero => rfl
  | succ fuel =>
    unfold bfsLoop
    rw [hq]

theorem bfsLoop_stab :
    ∀ (f1 f2 : Nat) (st : BfsSt), bfsMeasure st ≤ f1 → bfsMeasure st ≤ f2 →
    bfsLoop f1 st = bfsLoop f2 st := by
  intro f1
  induction f1 with
  | zero =>
    intro f2 st h1 h2
    have hq : st.queue = [] := by
      have : st.queue.length = 0 := by
        have := Nat.le_trans (Nat.le_add_right st.queue.length _) h1
        omega
      exact List.length_eq_zero.mp this
    rw [bfsLoop_empty_queue st hq, bfsLoop_empty_queue st hq]
  | succ f1 ih =>
    intro f2 st h1 h2
    cases f2 with
    | zero =>
      have hq : st.queue = [] := by
        have : st.queue.length = 0 := by
          have := Nat.le_trans (Nat.le_add_right st.queue.length _) h2
          omega
        exact List.length_eq_zero.mp this
      rw [bfsLoop_empty_queue st hq, bfsLoop_empty_queue st hq]
    | succ f2 =>
      show bfsLoop (f1 + 1) st = bfsLoop (f2 + 1) st
      unfold bfsLoop
      cases hq : st.queue with
      | nil => rfl
      | cons c rest =>
        dsimp
        by_cases hg : st.seen.length ≤ MAX_NODES
        · rw [if_pos hg, if_pos hg]
          cases hnid : nodeIdOf st.heap c with
          | error e => rfl
          | ok cid =>
            dsimp
            cases hvn : visitNeighbors cid (outRefs (st.heap c))
                { st with queue := rest, adj := ensureKey st.adj cid } with
            | error e => rfl
            | ok st2 =>
              dsimp
              have hm := visitNeighbors_measure cid _ _ _ (by simpa using hg) hvn
              have hmid : bfsMeasure { st with queue := rest, adj := ensureKey st.adj cid } + 1 =
                  bfsMeasure st := by
                simp [bfsMeasure, hq]
                omega
              have hm2 : bfsMeasure st2 + 1 ≤ bfsMeasure st := by omega
              have hst : bfsMeasure st ≤ f1 + 1 := h1
              have hst2 : bfsMeasure st ≤ f2 + 1 := h2
              exact ih f2 st2 (by omega) (by omega)
        · rw [if_neg hg, if_neg hg]

theorem llLoop_nodes_le :
    ∀ (fuel : Nat) (st st' : LLSt), llLoop fuel st = .ok st' →
    st'.nodes.length ≤ st.nodes.length + fuel := by
  intro fuel
  induction fuel with
  | zero =>
    intro st st' h
    cases h
    simp
  | succ fuel ih =>
    intro st st' h
    unfold llLoop at h
    cases hc : st.curr with
    | none => rw [hc] at h; cases h; simp
    | some c =>
      rw [hc] at h
      dsimp at h
      split at h
      · cases hp : st.prev with
        | none => rw [hp] at h; contradiction
        | some p => rw [hp] at h; cases h; simp
      · cases hv : llValStr (st.heap c) with
        | error e => rw [hv] at h; cases h
        | ok v =>
          rw [hv] at h
          dsimp at h
          cases hn : (st.heap c).next with
          | none => rw [hn] at h; cases h
          | some o =>
            rw [hn] at h
            cases o with
            | none =>
              dsimp at h
              have := ih _ _ h
              simp at this
              omega
            | some nxt =>
              dsimp at h
              have := ih _ _ h
              simp at this
              omega

/-- C8: both traversals are resource-bounded.  The pointer walk in
`dump_viz` finishes within the node ceiling: running the loop with any
fuel beyond `MAX_NODES = 20` iterations computes the same result as
`MAX_NODES` iterations (from any `dump_viz` start state), so the walk
halts within 20 dequeue steps regardless of cycles.  The linked-list
walk obeys the fixed step ceiling: any emitted payload holds at most
100 nodes, one per executed step. -/
theorem c8_bounded_traversals :
    (∀ (heap : Heap) (r k : Nat),
       bfsLoop (MAX_NODES + k) ⟨heap, [r], [r], [], false⟩ =
         bfsLoop MAX_NODES ⟨heap, [r], [r], [], false⟩) ∧
    (∀ (heap : Heap) (hd : Option Nat) (v : Option (List String))
       (cn : Option Nat) (ce : Option Edge) (mn : Option Nat)
       (p : LLPayload) (h : Heap),
       print_linked_list_viz heap hd v cn ce mn = .ok (p, h) →
       p.nodes.length ≤ 100) := by
  constructor
  · intro heap r k
    apply bfsLoop_stab
    · simp [bfsMeasure, MAX_NODES]
    · simp [bfsMeasure, MAX_NODES]
  · intro heap hd v cn ce mn p h hok
    unfold print_linked_list_viz at hok
    cases hl : llLoop 100 ⟨heap, hd, none, [], [], []⟩ with
    | error e => rw [hl] at hok; cases hok
    | ok st =>
      rw [hl] at hok
      cases hok
      have := llLoop_nodes_le 100 _ _ hl
      simpa using this

/-- C8 witness: the step bound applied to a concrete one-node chain. -/
theorem c8_witness :
    (LLPayload.mk [LLNode.mk "0" "solo"] [] false none none).nodes.length ≤ 100 :=
  c8_bounded_traversals.2 heapOne (some 0) none none none none _ heapOne rfl

/-! Claim C6: order lemmas for the modelled string order and the
modelled set. -/

theorem charsLe_total : ∀ (as bs : List Char),
    charsLe as bs = true ∨ charsLe bs as = true := by
  intro as
  induction as with
  | nil => intro bs; left; rfl
  | cons a as ih =>
    intro bs
    cases bs with
    | nil => right; rfl
    | cons b bs =>
      by_cases hab : a = b
      · subst hab
        unfold charsLe
        simp only [if_pos rfl]
        exact ih bs
      · unfold charsLe
        rw [if_neg hab, if_neg (Ne.symm hab)]
        rcases lt_or_gt_of_ne hab with hlt | hgt
        · left; exact decide_eq_true hlt
        · right; exact decide_eq_true hgt

theorem charsLe_trans : ∀ (as bs cs : List Char),
    charsLe as bs = true → charsLe bs cs = true → charsLe as cs = true := by
  intro as
  induction as with
  | nil => intro bs cs _ _; rfl
  | cons a as ih =>
    intro bs cs h1 h2
    cases bs with
    | nil => simp [charsLe] at h1
    | cons b bs =>
      cases cs with
      | nil => simp [charsLe] at h2
      | cons c cs =>
        unfold charsLe at h1 h2 ⊢
        by_cases hab : a = b
        · subst hab
          rw [if_pos rfl] at h1
          by_cases hbc : a = c
          · subst hbc
            rw [if_pos rfl] at h2
            rw [if_pos rfl]
            exact ih _ _ h1 h2
          · rw [if_neg hbc] at h2
            rw [if_neg hbc]
            exact h2
        · rw [if_neg hab] at h1
          have hlt1 : a < b := of_decide_eq_true h1
          by_cases hbc : b = c
          · subst hbc
            rw [if_neg hab]
            exact decide_eq_true hlt1
          · rw [if_neg hbc] at h2
            have hlt2 : b < c := of_decide_eq_true h2
            have hac : a < c := lt_trans hlt1 hlt2
            rw [if_neg (ne_of_lt hac)]
            exact decide_eq_true hac

theorem charsLe_antisymm : ∀ (as bs : List Char),
    charsLe as bs = true → charsLe bs as = true → as = bs := by
  intro as
  induction as with
  | nil =>
    intro bs h1 h2
    cases bs with
    | nil => rfl
    | cons b bs => simp [charsLe] at h2
  | cons a as ih =>
    intro bs h1 h2
    cases bs with
    | nil => simp [charsLe] at h1
    | cons b bs =>
      unfold charsLe at h1 h2
      by_cases hab : a = b
      · subst hab
        rw [if_pos rfl] at h1 h2
        rw [ih _ h1 h2]
      · rw [if_neg hab] at h1
        rw [if_neg (Ne.symm hab)] at h2
        exact absurd (of_decide_eq_true h2) (lt_asymm (of_decide_eq_true h1))

instance : IsTrans String strLe :=
  ⟨fun _ _ _ h1 h2 => charsLe_trans _ _ _ h1 h2⟩

instance : IsTotal String strLe :=
  ⟨fun _ _ => charsLe_total _ _⟩

instance : IsAntisymm String strLe :=
  ⟨fun _ _ h1 h2 => String.ext (charsLe_antisymm _ _ h1 h2)⟩

theorem mem_foldl_addNew : ∀ (l acc : List String) (x : String),
    x ∈ l.foldl addNew acc ↔ x ∈ acc ∨ x ∈ l := by
  intro l
  induction l with
  | nil => intro acc x; simp
  | cons a l ih =>
    intro acc x
    rw [List.foldl_cons, ih]
    unfold addNew
    by_cases h : a ∈ acc
    · rw [if_pos h]
      simp only [List.mem_cons]
      constructor
      · rintro (h1 | h1)
        · exact Or.inl h1
        · exact Or.inr (Or.inr h1)
      · rintro (h1 | h1 | h1)
        · exact Or.inl h1
        · subst h1; exact Or.inl h
        · exact Or.inr h1
    · rw [if_neg h]
      simp only [List.mem_append, List.mem_singleton, List.mem_cons]
      tauto

theorem nodup_foldl_addNew : ∀ (l acc : List String),
    acc.Nodup → (l.foldl addNew acc).Nodup := by
  intro l
  induction l with
  | nil => intro acc h; exact h
  | cons a l ih =>
    intro acc h
    rw [List.foldl_cons]
    apply ih
    unfold addNew
    by_cases hm : a ∈ acc
    · rw [if_pos hm]; exact h
    · rw [if_neg hm]
      simp [List.nodup_append, h, hm]

theorem print_graph_viz_ok_shape (adj : List (String × GVal))
    (vo rn : Option (List String)) (ce : Option (List Edge)) (t : Bool)
    (p : GraphPayload) (hok : print_graph_viz adj vo rn ce t = .ok p) :
    p.nodes = (((adj.map Prod.fst ++
        (adj.map (fun q => q.2.asList)).flatten).foldl addNew
        []).insertionSort strLe).map (fun n => GNode.mk n n) := by
  unfold print_graph_viz at hok
  cases hcu : collectUnique adj with
  | error e => rw [hcu] at hok; cases hok
  | ok u =>
    rw [hcu] at hok
    dsimp at hok
    cases hok
    unfold collectUnique at hcu
    split at hcu
    · cases hcu
    · cases hcu
      rfl

/-- C6: for adjacency mappings the emitted node list is the set-union
of all keys and all referenced neighbor ids, sorted by the
lexicographic order of the identifiers' string form (duplicate-free),
and it is invariant under reordering of the mapping's entries. -/
theorem c6_sorted_canonical_nodes :
    (∀ (adj : List (String × GVal)) (vo rn : Option (List String))
       (ce : Option (List Edge)) (t : Bool) (p : GraphPayload),
       print_graph_viz adj vo rn ce t = .ok p →
       (p.nodes.map GNode.id).Sorted strLe ∧
       (p.nodes.map GNode.id).Nodup ∧
       (∀ x, x ∈ p.nodes.map GNode.id ↔
          x ∈ adj.map Prod.fst ∨
            x ∈ (adj.map (fun q => q.2.asList)).flatten)) ∧
    (∀ (adj adj2 : List (String × GVal)) (vo rn : Option (List String))
       (ce : Option (List Edge)) (t : Bool) (p p2 : GraphPayload),
       adj.Perm adj2 →
       print_graph_viz adj vo rn ce t = .ok p →
       print_graph_viz adj2 vo rn ce t = .ok p2 →
       p.nodes = p2.nodes) := by
  have hids : ∀ (adj : List (String × GVal)) (vo rn : Option (List String))
      (ce : Option (List Edge)) (t : Bool) (p : GraphPayload),
      print_graph_viz adj vo rn ce t = .ok p →
      p.nodes.map GNode.id = ((adj.map Prod.fst ++
        (adj.map (fun q => q.2.asList)).flatten).foldl addNew
        []).insertionSort strLe := by
    intro adj vo rn ce t p hok
    rw [print_graph_viz_ok_shape adj vo rn ce t p hok]
    rw [List.map_map]
    exact List.map_id _
  constructor
  · intro adj vo rn ce t p hok
    rw [hids adj vo rn ce t p hok]
    refine ⟨List.sorted_insertionSort strLe _, ?_, ?_⟩
    · rw [(List.perm_insertionSort strLe _).nodup_iff]
      exact nodup_foldl_addNew _ _ List.nodup_nil
    · intro x
      rw [(List.perm_insertionSort strLe _).mem_iff, mem_foldl_addNew]
      simp
  · intro adj adj2 vo rn ce t p p2 hperm hok hok2
    have h1 := hids adj vo rn ce t p hok
    have h2 := hids adj2 vo rn ce t p2 hok2
    have hmem : ∀ x, x ∈ ((adj.map Prod.fst ++
        (adj.map (fun q => q.2.asList)).flatten).foldl addNew []) ↔
        x ∈ ((adj2.map Prod.fst ++
        (adj2.map (fun q => q.2.asList)).flatten).foldl addNew []) := by
      intro x
      rw [mem_foldl_addNew, mem_foldl_addNew]
      simp only [List.not_mem_nil, false_or, List.mem_append]
      exact or_congr (hperm.map Prod.fst).mem_iff
        ((hperm.map (fun q => q.2.asList)).flatten.mem_iff)
    have hpermU : ((adj.map Prod.fst ++
        (adj.map (fun q => q.2.asList)).flatten).foldl addNew []).Perm
        ((adj2.map Prod.fst ++
        (adj2.map (fun q => q.2.asList)).flatten).foldl addNew []) :=
      (List.perm_ext_iff_of_nodup (nodup_foldl_addNew _ _ List.nodup_nil)
        (nodup_foldl_addNew _ _ List.nodup_nil)).mpr hmem
    have hsortEq : ((adj.map Prod.fst ++
        (adj.map (fun q => q.2.asList)).flatten).foldl addNew
        []).insertionSort strLe =
        ((adj2.map Prod.fst ++
        (adj2.map (fun q => q.2.asList)).flatten).foldl addNew
        []).insertionSort strLe := by
      exact @List.eq_of_perm_of_sorted _ strLe inferInstance _ _
        (((List.perm_insertionSort strLe _).trans hpermU).trans
          (List.perm_insertionSort strLe _).symm)
        (List.sorted_insertionSort strLe _)
        (List.sorted_insertionSort strLe _)
    rw [print_graph_viz_ok_shape adj vo rn ce t p hok,
        print_graph_viz_ok_shape adj2 vo rn ce t p2 hok2, hsortEq]

/-- C6 witness: two permuted adjacency mappings produce the identical
sorted node list. -/
theorem c6_witness :
    print_graph_viz [("b", GVal.vlist ["c"]), ("a", GVal.vlist [])]
        none none none false =
      print_graph_viz [("a", GVal.vlist []), ("b", GVal.vlist ["c"])]
        none none none false ∧
    (GraphPayload.mk [GNode.mk "a" "a", GNode.mk "b" "b", GNode.mk "c" "c"]
        [Edge.mk "b" "c"] [] [] [] false).nodes =
      (GraphPayload.mk [GNode.mk "a" "a", GNode.mk "b" "b", GNode.mk "c" "c"]
        [Edge.mk "b" "c"] [] [] [] false).nodes := by
  constructor
  · rfl
  · exact c6_sorted_canonical_nodes.2
      [("b", GVal.vlist ["c"]), ("a", GVal.vlist [])]
      [("a", GVal.vlist []), ("b", GVal.vlist ["c"])]
      none none none false _ _
      (by decide)
      rfl
      rfl

/-! Claim C2. -/

theorem mem_dropLast_or_getLast {α : Type} (l : List α) (e : α) (he : e ∈ l) :
    e ∈ l.dropLast ∨ l.getLast? = some e := by
  cases hl : l with
  | nil => subst hl; cases he
  | cons a as =>
    have hne : l ≠ [] := by rw [hl]; exact List.cons_ne_nil a as
    subst hl
    rw [← List.dropLast_append_getLast hne] at he
    rcases List.mem_append.mp he with h | h
    · exact Or.inl h
    · right
      rw [List.getLast?_eq_getLast _ hne]
      rcases List.mem_singleton.mp h with rfl
      rfl

/-- The ids of the nodes accumulated by the linked-list walk. -/
def llNodeIds (st : LLSt) : List String := st.nodes.map LLNode.id

theorem llLoop_endpoints :
    ∀ (fuel : Nat) (st st' : LLSt),
    (∀ e ∈ st.ptrs, e.src ∈ llNodeIds st) →
    (∀ e ∈ st.ptrs.dropLast, e.dst ∈ llNodeIds st) →
    (∀ e, st.ptrs.getLast? = some e →
       e.dst ∈ llNodeIds st ∨ ∃ c, st.curr = some c ∧ e.dst = idStr c) →
    (∀ s ∈ st.seen, s ∈ llNodeIds st) →
    (∀ q, st.prev = some q → idStr q ∈ llNodeIds st) →
    llLoop fuel st = .ok st' →
    (∀ e ∈ st'.ptrs, e.src ∈ llNodeIds st') ∧
    (∀ e ∈ st'.ptrs.dropLast, e.dst ∈ llNodeIds st') := by
  intro fuel
  induction fuel with
  | zero =>
    intro st st' h1 h2 h3 h4 h5 hok
    cases hok
    exact ⟨h1, h2⟩
  | succ fuel ih =>
    intro st st' h1 h2 h3 h4 h5 hok
    unfold llLoop at hok
    cases hc : st.curr with
    | none =>
      rw [hc] at hok
      cases hok
      exact ⟨h1, h2⟩
    | some c =>
      rw [hc] at hok
      dsimp at hok
      split at hok
      next hmem =>
        cases hp : st.prev with
        | none => rw [hp] at hok; contradiction
        | some q =>
          rw [hp] at hok
          cases hok
          constructor
          · intro e he
            rcases List.mem_append.mp he with h | h
            · exact h1 e h
            · rcases List.mem_singleton.mp h with rfl
              exact h5 q hp
          · intro e he
            rw [List.dropLast_concat] at he
            rcases mem_dropLast_or_getLast _ _ he with h | h
            · exact h2 e h
            · rcases h3 e h with hin | ⟨c', hc', hdst⟩
              · exact hin
              · rw [hc] at hc'
                cases hc'
                rw [hdst]
                exact h4 _ hmem
      next hmem =>
        cases hv : llValStr (st.heap c) with
        | error e0 => rw [hv] at hok; cases hok
        | ok v =>
          rw [hv] at hok
          dsimp at hok
          cases hn : (st.heap c).next with
          | none => rw [hn] at hok; cases hok
          | some o =>
            rw [hn] at hok
            cases o with
            | none =>
              dsimp at hok
              apply ih _ _ _ _ _ _ _ hok
              · intro e he
                have hs := h1 e he
                simp only [llNodeIds, List.map_append] at hs ⊢
                exact List.mem_append_left _ hs
              · intro e he
                have hs := h2 e he
                simp only [llNodeIds, List.map_append] at hs ⊢
                exact List.mem_append_left _ hs
              · intro e he
                rcases h3 e he with hin | ⟨c', hc', hdst⟩
                · refine Or.inl ?_
                  simp only [llNodeIds, List.map_append] at hin ⊢
                  exact List.mem_append_left _ hin
                · rw [hc] at hc'
                  cases hc'
                  refine Or.inl ?_
                  rw [hdst]
                  simp only [llNodeIds, List.map_append]
                  apply List.mem_append_right
                  simp
              · intro s hs
                rcases List.mem_cons.mp hs with rfl | hs
                · simp only [llNodeIds, List.map_append]
                  apply List.mem_append_right
                  simp
                · have hs2 := h4 s hs
                  simp only [llNodeIds, List.map_append] at hs2 ⊢
                  exact List.mem_append_left _ hs2
              · intro q hq
                cases hq
                simp only [llNodeIds, List.map_append]
                apply List.mem_append_right
                simp
            | some nxt =>
              dsimp at hok
              apply ih _ _ _ _ _ _ _ hok
              · intro e he
                rcases List.mem_append.mp he with h | h
                · have hs := h1 e h
                  simp only [llNodeIds, List.map_append] at hs ⊢
                  exact List.mem_append_left _ hs
                · rcases List.mem_singleton.mp h with rfl
                  simp only [llNodeIds, List.map_append]
                  apply List.mem_append_right
                  simp
              · intro e he
                rw [List.dropLast_concat] at he
                rcases mem_dropLast_or_getLast _ _ he with h | h
                · have hs := h2 e h
                  simp only [llNodeIds, List.map_append] at hs ⊢
                  exact List.mem_append_left _ hs
                · rcases h3 e h with hin | ⟨c', hc', hdst⟩
                  · simp only [llNodeIds, List.map_append] at hin ⊢
                    exact List.mem_append_left _ hin
                  · rw [hc] at hc'
                    cases hc'
                    rw [hdst]
                    simp only [llNodeIds, List.map_append]
                    apply List.mem_append_right
                    simp
              · intro e he
                rw [List.getLast?_concat] at he
                cases he
                exact Or.inr ⟨nxt, rfl, rfl⟩
              · intro s hs
                rcases List.mem_cons.mp hs with rfl | hs
                · simp only [llNodeIds, List.map_append]
                  apply List.mem_append_right
                  simp
                · have hs2 := h4 s hs
                  simp only [llNodeIds, List.map_append] at hs2 ⊢
                  exact List.mem_append_left _ hs2
              · intro q hq
                cases hq
                simp only [llNodeIds, List.map_append]
                apply List.mem_append_right
                simp

theorem print_graph_viz_ok_edges (adj : List (String × GVal))
    (vo rn : Option (List String)) (ce : Option (List Edge)) (t : Bool)
    (p : GraphPayload) (hok : print_graph_viz adj vo rn ce t = .ok p) :
    p.edges = buildEdges adj ((adj.map Prod.fst ++
      (adj.map (fun q => q.2.asList)).flatten).foldl addNew []) := by
  unfold print_graph_viz at hok
  cases hcu : collectUnique adj with
  | error e => rw [hcu] at hok; cases hok
  | ok u =>
    rw [hcu] at hok
    dsimp at hok
    cases hok
    unfold collectUnique at hcu
    split at hcu
    · cases hcu
    · cases hcu
      rfl

set_option maxRecDepth 8000

/-- C2 counterexample: on a straight 101-node chain the 100-step
ceiling cuts the walk with a successor pending; the final emitted
pointer's target is not among the emitted node ids, so a dangling
reference IS serialized by `print_linked_list_viz`. -/
theorem c2_list_helper_dangling_edge :
    ¬ (∀ (p : LLPayload) (h : Heap),
        print_linked_list_viz heap101 (some 0) none none none none = .ok (p, h) →
        ∀ e ∈ p.nextPointers, e.dst ∈ p.nodes.map LLNode.id) := by
  intro hall
  have h1 := hall _ _ rfl (Edge.mk (idStr 99) (idStr 100)) (by decide)
  exact absurd h1 (by decide)

/-- C2 amended: `print_graph_viz` never serializes a dangling edge
(both endpoints of every emitted edge are emitted node ids), and in
`print_linked_list_viz` every pointer's source is an emitted node id
and every pointer except possibly the final one (which can dangle when
the step ceiling cuts the walk) has its target among the emitted node
ids. -/
theorem c2_endpoints_in_nodes :
    (∀ (adj : List (String × GVal)) (vo rn : Option (List String))
       (ce : Option (List Edge)) (t : Bool) (p : GraphPayload),
       print_graph_viz adj vo rn ce t = .ok p →
       ∀ e ∈ p.edges,
         e.src ∈ p.nodes.map GNode.id ∧ e.dst ∈ p.nodes.map GNode.id) ∧
    (∀ (heap : Heap) (hd : Option Nat) (v : Option (List String))
       (cn : Option Nat) (ce : Option Edge) (mn : Option Nat)
       (p : LLPayload) (h : Heap),
       print_linked_list_viz heap hd v cn ce mn = .ok (p, h) →
       (∀ e ∈ p.nextPointers, e.src ∈ p.nodes.map LLNode.id) ∧
       (∀ e ∈ p.nextPointers.dropLast, e.dst ∈ p.nodes.map LLNode.id)) := by
  constructor
  · intro adj vo rn ce t p hok e he
    have hedges := print_graph_viz_ok_edges adj vo rn ce t p hok
    have hids : p.nodes.map GNode.id = ((adj.map Prod.fst ++
        (adj.map (fun q => q.2.asList)).flatten).foldl addNew
        []).insertionSort strLe := by
      rw [print_graph_viz_ok_shape adj vo rn ce t p hok, List.map_map]
      exact List.map_id _
    rw [hedges] at he
    unfold buildEdges at he
    rcases List.mem_flatten.mp he with ⟨l, hl, hel⟩
    rcases List.mem_map.mp hl with ⟨q, hq, rfl⟩
    split at hel
    next hqu =>
      rcases List.mem_map.mp hel with ⟨w, hw, rfl⟩
      have hwu := (List.mem_filter.mp hw).2
      constructor
      · rw [hids]
        exact (List.perm_insertionSort strLe _).mem_iff.mpr hqu
      · rw [hids]
        exact (List.perm_insertionSort strLe _).mem_iff.mpr
          (of_decide_eq_true hwu)
    next hqu => cases hel
  · intro heap hd v cn ce mn p h hok
    unfold print_linked_list_viz at hok
    cases hl : llLoop 100 ⟨heap, hd, none, [], [], []⟩ with
    | error e => rw [hl] at hok; cases hok
    | ok st =>
      rw [hl] at hok
      cases hok
      exact llLoop_endpoints 100 ⟨heap, hd, none, [], [], []⟩ st
        (fun e he => absurd he (List.not_mem_nil e))
        (fun e he => absurd he (List.not_mem_nil e))
        (fun e he => by cases he)
        (fun s hs => absurd hs (List.not_mem_nil s))
        (fun q hq => by cases hq)
        hl

/-- C2 witness: the graph half applied to a one-edge adjacency
mapping. -/
theorem c2_witness :
    (Edge.mk "a" "b").src ∈
      ((GraphPayload.mk [GNode.mk "a" "a", GNode.mk "b" "b"]
        [Edge.mk "a" "b"] [] [] [] false).nodes.map GNode.id) ∧
    (Edge.mk "a" "b").dst ∈
      ((GraphPayload.mk [GNode.mk "a" "a", GNode.mk "b" "b"]
        [Edge.mk "a" "b"] [] [] [] false).nodes.map GNode.id) :=
  c2_endpoints_in_nodes.1 [("a", GVal.vlist ["b"])] none none none false
    (GraphPayload.mk [GNode.mk "a" "a", GNode.mk "b" "b"]
      [Edge.mk "a" "b"] [] [] [] false) rfl (Edge.mk "a" "b") (by decide)

/-! Claim C3. -/

theorem llLoop_step_advance (fuel : Nat) (st : LLSt) (c nxt : Nat) (vs : String)
    (hc : st.curr = some c)
    (hmem : idStr c ∉ st.seen)
    (hval : (st.heap c).val = some (some vs))
    (hnext : (st.heap c).next = some (some nxt)) :
    llLoop (fuel + 1) st =
      llLoop fuel { st with
        curr := some nxt, prev := some c,
        seen := idStr c :: st.seen,
        nodes := st.nodes ++ [LLNode.mk (idStr c) vs],
        ptrs := st.ptrs ++ [Edge.mk (idStr c) (idStr nxt)] } := by
  conv_lhs => unfold llLoop
  rw [hc]
  dsimp only
  rw [if_neg hmem]
  unfold llValStr
  rw [hval]
  dsimp only
  rw [hnext]

theorem llLoop_step_close (fuel : Nat) (st : LLSt) (c q : Nat)
    (hc : st.curr = some c)
    (hmem : idStr c ∈ st.seen)
    (hp : st.prev = some q) :
    llLoop (fuel + 1) st =
      .ok { st with ptrs := st.ptrs ++ [Edge.mk (idStr q) (idStr c)] } := by
  unfold llLoop
  rw [hc]
  dsimp
  rw [if_pos hmem, hp]

theorem llChain_stAt_succ (heap : Heap) (pos : Nat → Nat) (v : Nat → String)
    (m k j : Nat) (hm : m ≤ 99) (hj : j < m)
    (hinj : ∀ i, i < m → ∀ i2, i2 < m →
      idStr (pos i) = idStr (pos i2) → i = i2)
    (hchain : cyclicChain heap pos v m k) :
    llLoop (100 - j) (llStAt heap pos v m k j) =
      llLoop (100 - (j + 1)) (llStAt heap pos v m k (j + 1)) := by
  have hfuel : 100 - j = (100 - (j + 1)) + 1 := by omega
  rw [hfuel]
  have hcm : (llStAt heap pos v m k j).curr = some (pos j) := by
    simp [llStAt, Nat.ne_of_lt hj]
  have hmem : idStr (pos j) ∉ (llStAt heap pos v m k j).seen := by
    simp only [llStAt, List.mem_reverse, List.mem_map, List.mem_range]
    rintro ⟨i, hij, hid⟩
    have := hinj i (lt_trans hij hj) j hj hid
    omega
  have hch := hchain j hj
  rw [llLoop_step_advance (100 - (j + 1)) _ (pos j) (pos (nxtIdx m k j)) (v j)
    hcm hmem hch.1 hch.2]
  congr 1
  simp [llStAt, List.range_succ, nxtIdx]

theorem llChain_run (heap : Heap) (pos : Nat → Nat) (v : Nat → String)
    (m k : Nat) (hm : m ≤ 99)
    (hinj : ∀ i, i < m → ∀ i2, i2 < m →
      idStr (pos i) = idStr (pos i2) → i = i2)
    (hchain : cyclicChain heap pos v m k) :
    ∀ j, j ≤ m → llLoop 100 (llStAt heap pos v m k 0) =
      llLoop (100 - j) (llStAt heap pos v m k j) := by
  intro j
  induction j with
  | zero => intro _; rfl
  | succ j ih =>
    intro hj1
    have hj : j < m := by omega
    rw [ih (le_of_lt hj),
        llChain_stAt_succ heap pos v m k j hm hj hinj hchain]

theorem llChain_close (heap : Heap) (pos : Nat → Nat) (v : Nat → String)
    (m k : Nat) (hm : m ≤ 99) (hk : k < m) :
    llLoop (100 - m) (llStAt heap pos v m k m) =
      .ok { llStAt heap pos v m k m with
        ptrs := (llStAt heap pos v m k m).ptrs ++
          [Edge.mk (idStr (pos (m - 1))) (idStr (pos k))] } := by
  have hm0 : m ≠ 0 := by omega
  have hfuel : 100 - m = (100 - m - 1) + 1 := by omega
  rw [hfuel]
  apply llLoop_step_close
  · simp [llStAt]
  · simp only [llStAt, List.mem_reverse, List.mem_map, List.mem_range]
    exact ⟨k, hk, rfl⟩
  · simp [llStAt, hm0]

/-- C3 amended: for a chain whose node at position `m-1` points back to
position `k` (all node ids distinct, revisit reached within the step
ceiling), `print_linked_list_viz` terminates and emits all `m` nodes;
the closing pointer (from the node preceding the revisit to the
position-`k` node) is emitted TWICE — once by the ordinary
`curr.next` emission and once by the revisit branch — and it is the
only repeated entry; `cycleDetected` does not reflect the detected
revisit but only whether the caller supplied a `cycle_node` argument. -/
theorem c3_cyclic_chain_walk (heap : Heap) (pos : Nat → Nat) (v : Nat → String)
    (m k : Nat) (vn : Option (List String)) (cn : Option Nat)
    (ce : Option Edge) (mn : Option Nat)
    (hm : m ≤ 99) (hk : k < m)
    (hinj : ∀ i, i < m → ∀ i2, i2 < m →
      idStr (pos i) = idStr (pos i2) → i = i2)
    (hchain : cyclicChain heap pos v m k) :
    print_linked_list_viz heap (some (pos 0)) vn cn ce mn =
      .ok ({ nodes := (List.range m).map
               (fun i => LLNode.mk (idStr (pos i)) (v i)),
             nextPointers := ((List.range (m - 1)).map
               (fun i => Edge.mk (idStr (pos i)) (idStr (pos (nxtIdx m k i))))) ++
               [Edge.mk (idStr (pos (m - 1))) (idStr (pos k)),
                Edge.mk (idStr (pos (m - 1))) (idStr (pos k))],
             cycleDetected := cn.isSome,
             meetNode := mn.map idStr,
             cycleEdge := ce }, heap) ∧
    Edge.mk (idStr (pos (m - 1))) (idStr (pos k)) ∉
      (List.range (m - 1)).map
        (fun i => Edge.mk (idStr (pos i)) (idStr (pos (nxtIdx m k i)))) := by
  have hm0 : m ≠ 0 := by omega
  constructor
  · have h0 : (⟨heap, some (pos 0), none, [], [], []⟩ : LLSt) =
        llStAt heap pos v m k 0 := by
      simp [llStAt, Ne.symm hm0]
    have hrun := llChain_run heap pos v m k hm hinj hchain m (le_refl m)
    have hclose := llChain_close heap pos v m k hm hk
    unfold print_linked_list_viz
    rw [h0, hrun, hclose]
    have hsplit : (List.range m).map
        (fun i => Edge.mk (idStr (pos i)) (idStr (pos (nxtIdx m k i)))) =
        ((List.range (m - 1)).map
          (fun i => Edge.mk (idStr (pos i)) (idStr (pos (nxtIdx m k i))))) ++
          [Edge.mk (idStr (pos (m - 1))) (idStr (pos k))] := by
      have hm1 : m = (m - 1) + 1 := by omega
      rw [hm1]
      rw [List.range_succ, List.map_append]
      simp only [List.map_cons, List.map_nil]
      have hnx : nxtIdx ((m - 1) + 1) k (m - 1) = k := by
        simp [nxtIdx]
      rw [hnx]
      simp
    dsimp [llStAt]
    rw [hsplit]
    simp [List.append_assoc]
  · intro hmem
    rcases List.mem_map.mp hmem with ⟨i, hi, heq⟩
    have hi1 : i < m - 1 := List.mem_range.mp hi
    have hsrc : idStr (pos i) = idStr (pos (m - 1)) := by
      have := congrArg Edge.src heq
      simpa using this
    have := hinj i (by omega) (m - 1) (by omega) hsrc
    omega

/-- C3 counterexample: on the concrete cycle `0 → 1 → 2 → 0` (cycle
position `k = 0`), called without a `cycle_node` argument, the emitted
markers report `cycleDetected = false`, and the closing edge
`2 → 0` appears twice in `nextPointers`, not exactly once. -/
theorem c3_counterexample_markers :
    print_linked_list_viz heapCyc (some 0) none none none none =
      .ok ({ nodes := [LLNode.mk "0" "c0", LLNode.mk "1" "c1",
               LLNode.mk "2" "c2"],
             nextPointers := [Edge.mk "0" "1", Edge.mk "1" "2",
               Edge.mk "2" "0", Edge.mk "2" "0"],
             cycleDetected := false, meetNode := none,
             cycleEdge := none }, heapCyc) ∧
    ¬ ((false : Bool) = true ∧
       ([Edge.mk "0" "1", Edge.mk "1" "2", Edge.mk "2" "0",
         Edge.mk "2" "0"].count (Edge.mk "2" "0")) = 1) :=
  ⟨rfl, by decide⟩

/-- C3 witness: the amended theorem applied to the concrete three-node
cycle. -/
theorem c3_witness :
    print_linked_list_viz heapCyc (some 0) none none none none =
      .ok ({ nodes := [LLNode.mk "0" "c0", LLNode.mk "1" "c1",
               LLNode.mk "2" "c2"],
             nextPointers := [Edge.mk "0" "1", Edge.mk "1" "2",
               Edge.mk "2" "0", Edge.mk "2" "0"],
             cycleDetected := false, meetNode := none,
             cycleEdge := none }, heapCyc) ∧
    Edge.mk "2" "0" ∉ [Edge.mk "0" "1", Edge.mk "1" "2"] :=
  c3_cyclic_chain_walk heapCyc (fun i => i)
    (fun i => "c" ++ toString i) 3 0 none none none none
    (by decide) (by decide) (by decide)
    (by unfold cyclicChain nxtIdx; decide)

/-! Claim C1. -/

theorem ensureKey_fresh (A : List (String × List String)) (x : String)
    (h : ∀ p ∈ A, p.1 ≠ x) : ensureKey A x = A ++ [(x, [])] := by
  unfold ensureKey
  rw [if_neg]
  intro hc
  rcases List.any_eq_true.mp hc with ⟨p, hp, he⟩
  exact h p hp (of_decide_eq_true he)

theorem appendVal_no_key (A : List (String × List String)) (x y : String)
    (h : ∀ p ∈ A, p.1 ≠ x) : appendVal A x y = A := by
  unfold appendVal
  induction A with
  | nil => rfl
  | cons p A ih =>
    rw [List.map_cons]
    rw [if_neg (h p (List.mem_cons_self p A))]
    rw [ih (fun q hq => h q (List.mem_cons_of_mem p hq))]

theorem appendVal_last (A : List (String × List String)) (x y : String)
    (l : List String) (h : ∀ p ∈ A, p.1 ≠ x) :
    appendVal (A ++ [(x, l)]) x y = A ++ [(x, l ++ [y])] := by
  unfold appendVal
  rw [List.map_append]
  have h1 : A.map (fun p => if p.1 = x then (p.1, p.2 ++ [y]) else p) = A := by
    have := appendVal_no_key A x y h
    unfold appendVal at this
    exact this
  rw [h1, List.map_cons, List.map_nil, if_pos rfl]

theorem visitNeighbors_single_enq (cid : String) (n : Nat) (st : BfsSt)
    (nv : String)
    (hnv : nodeIdOf st.heap n = .ok nv)
    (hnmem : n ∉ st.seen)
    (hroom : st.seen.length < MAX_NODES) :
    visitNeighbors cid [n] st = .ok { st with
      adj := appendVal st.adj cid nv,
      seen := st.seen ++ [n], queue := st.queue ++ [n] } := by
  unfold visitNeighbors
  rw [hnv]
  dsimp only
  rw [if_neg hnmem, if_neg (not_le.mpr hroom)]
  rfl

theorem visitNeighbors_single_trunc (cid : String) (n : Nat) (st : BfsSt)
    (nv : String)
    (hnv : nodeIdOf st.heap n = .ok nv)
    (hnmem : n ∉ st.seen)
    (hfull : MAX_NODES ≤ st.seen.length) :
    visitNeighbors cid [n] st = .ok { st with
      adj := appendVal st.adj cid nv, trunc := true } := by
  unfold visitNeighbors
  rw [hnv]
  dsimp only
  rw [if_neg hnmem, if_pos hfull]
  rfl

theorem bfsLoop_step_pop (fuel : Nat) (st : BfsSt) (c : Nat)
    (rest : List Nat) (cv : String)
    (hq : st.queue = c :: rest)
    (hg : st.seen.length ≤ MAX_NODES)
    (hcv : nodeIdOf st.heap c = .ok cv) :
    bfsLoop (fuel + 1) st =
      match visitNeighbors cv (outRefs (st.heap c))
          { st with queue := rest, adj := ensureKey st.adj cv } with
      | .error e => .error e
      | .ok st2 => bfsLoop fuel st2 := by
  conv_lhs => unfold bfsLoop
  rw [hq]
  dsimp only
  rw [if_pos hg, hcv]

theorem bfsChain_step (heap : Heap) (pos : Nat → Nat) (v : Nat → String)
    (hchain : straightChain25 heap pos v)
    (hpinj : ∀ i, i ≤ 20 → ∀ i2, i2 ≤ 20 → pos i = pos i2 → i = i2)
    (hvinj : ∀ i, i ≤ 20 → ∀ i2, i2 ≤ 20 → v i = v i2 → i = i2)
    (j : Nat) (hj : j ≤ 18) :
    bfsLoop (20 - j) (bfsStAt heap pos v j) =
      bfsLoop (20 - (j + 1)) (bfsStAt heap pos v (j + 1)) := by
  have hch := hchain j (by omega)
  have hchn := hchain (j + 1) (by omega)
  have hfuel : 20 - j = (20 - (j + 1)) + 1 := by omega
  have hg : (bfsStAt heap pos v j).seen.length ≤ MAX_NODES := by
    simp [bfsStAt, MAX_NODES]
    omega
  have hcv : nodeIdOf (bfsStAt heap pos v j).heap (pos j) = .ok (v j) := by
    unfold nodeIdOf
    dsimp only [bfsStAt]
    rw [hch.1]
  rw [hfuel, bfsLoop_step_pop (20 - (j + 1)) (bfsStAt heap pos v j)
    (pos j) [] (v j) rfl hg hcv]
  have hout : outRefs ((bfsStAt heap pos v j).heap (pos j)) = [pos (j + 1)] := by
    unfold outRefs
    dsimp only [bfsStAt]
    rw [hch.2.1, hch.2.2.1, hch.2.2.2.1, hch.2.2.2.2, if_pos (by omega : j < 24)]
    rfl
  rw [hout]
  have hkeys : ∀ p ∈ (bfsStAt heap pos v j).adj, p.1 ≠ v j := by
    dsimp only [bfsStAt]
    intro p hp
    rcases List.mem_map.mp hp with ⟨i, hi, rfl⟩
    have hi2 : i < j := List.mem_range.mp hi
    intro hvv
    have := hvinj i (by omega) j (by omega) hvv
    omega
  have hens : ensureKey (bfsStAt heap pos v j).adj (v j) =
      (bfsStAt heap pos v j).adj ++ [(v j, [])] :=
    ensureKey_fresh _ _ hkeys
  rw [hens]
  have hnv : nodeIdOf heap (pos (j + 1)) = .ok (v (j + 1)) := by
    unfold nodeIdOf
    rw [hchn.1]
  have hnmem : pos (j + 1) ∉ (bfsStAt heap pos v j).seen := by
    dsimp only [bfsStAt]
    intro hc
    rcases List.mem_map.mp hc with ⟨i, hi, hpp⟩
    have hi2 : i < j + 1 := List.mem_range.mp hi
    have := hpinj i (by omega) (j + 1) (by omega) hpp
    omega
  have hroom : (bfsStAt heap pos v j).seen.length < MAX_NODES := by
    simp [bfsStAt, MAX_NODES]
    omega
  rw [visitNeighbors_single_enq (v j) (pos (j + 1))
    { bfsStAt heap pos v j with
      queue := [], adj := (bfsStAt heap pos v j).adj ++ [(v j, [])] }
    (v (j + 1)) hnv hnmem hroom]
  dsimp only
  congr 1
  have happ : appendVal ((bfsStAt heap pos v j).adj ++ [(v j, [])])
      (v j) (v (j + 1)) = (bfsStAt heap pos v j).adj ++ [(v j, [v (j + 1)])] := by
    have := appendVal_last (bfsStAt heap pos v j).adj (v j) (v (j + 1)) [] hkeys
    simpa using this
  rw [happ]
  dsimp only [bfsStAt]
  rw [List.range_succ, List.range_succ]
  simp [List.range_succ]

theorem bfsChain_final (heap : Heap) (pos : Nat → Nat) (v : Nat → String)
    (hchain : straightChain25 heap pos v)
    (hpinj : ∀ i, i ≤ 20 → ∀ i2, i2 ≤ 20 → pos i = pos i2 → i = i2)
    (hvinj : ∀ i, i ≤ 20 → ∀ i2, i2 ≤ 20 → v i = v i2 → i = i2) :
    bfsLoop (20 - 19) (bfsStAt heap pos v 19) =
      .ok ⟨heap, [], (List.range 20).map pos,
        (List.range 20).map (fun i => (v i, [v (i + 1)])), true⟩ := by
  have hch := hchain 19 (by omega)
  have hchn := hchain 20 (by omega)
  have hg : (bfsStAt heap pos v 19).seen.length ≤ MAX_NODES := by
    simp [bfsStAt, MAX_NODES]
  have hcv : nodeIdOf (bfsStAt heap pos v 19).heap (pos 19) = .ok (v 19) := by
    unfold nodeIdOf
    dsimp only [bfsStAt]
    rw [hch.1]
  rw [show (20 - 19 : Nat) = 0 + 1 from rfl,
    bfsLoop_step_pop 0 (bfsStAt heap pos v 19) (pos 19) [] (v 19) rfl hg hcv]
  have hout : outRefs ((bfsStAt heap pos v 19).heap (pos 19)) = [pos 20] := by
    unfold outRefs
    dsimp only [bfsStAt]
    rw [hch.2.1, hch.2.2.1, hch.2.2.2.1, hch.2.2.2.2,
      if_pos (by omega : (19 : Nat) < 24)]
    rfl
  rw [hout]
  have hkeys : ∀ p ∈ (bfsStAt heap pos v 19).adj, p.1 ≠ v 19 := by
    dsimp only [bfsStAt]
    intro p hp
    rcases List.mem_map.mp hp with ⟨i, hi, rfl⟩
    have hi2 : i < 19 := List.mem_range.mp hi
    intro hvv
    have := hvinj i (by omega) 19 (by omega) hvv
    omega
  rw [ensureKey_fresh _ _ hkeys]
  have hnv : nodeIdOf heap (pos 20) = .ok (v 20) := by
    unfold nodeIdOf
    rw [hchn.1]
  have hnmem : pos 20 ∉ (bfsStAt heap pos v 19).seen := by
    dsimp only [bfsStAt]
    intro hc
    rcases List.mem_map.mp hc with ⟨i, hi, hpp⟩
    have hi2 : i < 20 := List.mem_range.mp hi
    have := hpinj i (by omega) 20 (by omega) hpp
    omega
  have hfull : MAX_NODES ≤ (bfsStAt heap pos v 19).seen.length := by
    simp [bfsStAt, MAX_NODES]
  rw [visitNeighbors_single_trunc (v 19) (pos 20)
    { bfsStAt heap pos v 19 with
      queue := [], adj := (bfsStAt heap pos v 19).adj ++ [(v 19, [])] }
    (v 20) hnv hnmem hfull]
  dsimp only
  have happ : appendVal ((bfsStAt heap pos v 19).adj ++ [(v 19, [])])
      (v 19) (v 20) = (bfsStAt heap pos v 19).adj ++ [(v 19, [v 20])] := by
    have := appendVal_last (bfsStAt heap pos v 19).adj (v 19) (v 20) [] hkeys
    simpa using this
  rw [happ]
  rw [show bfsLoop 0 = fun st => Except.ok st from rfl]
  dsimp only [bfsStAt]
  rw [show (20 : Nat) = 19 + 1 from rfl, List.range_succ]
  simp

theorem bfsChain_run (heap : Heap) (pos : Nat → Nat) (v : Nat → String)
    (hchain : straightChain25 heap pos v)
    (hpinj : ∀ i, i ≤ 20 → ∀ i2, i2 ≤ 20 → pos i = pos i2 → i = i2)
    (hvinj : ∀ i, i ≤ 20 → ∀ i2, i2 ≤ 20 → v i = v i2 → i = i2) :
    bfsLoop 20 (bfsStAt heap pos v 0) =
      .ok ⟨heap, [], (List.range 20).map pos,
        (List.range 20).map (fun i => (v i, [v (i + 1)])), true⟩ := by
  have hrun : ∀ j, j ≤ 19 → bfsLoop 20 (bfsStAt heap pos v 0) =
      bfsLoop (20 - j) (bfsStAt heap pos v j) := by
    intro j
    induction j with
    | zero => intro _; rfl
    | succ j ih =>
      intro hj1
      rw [ih (by omega), bfsChain_step heap pos v hchain hpinj hvinj j (by omega)]
  rw [hrun 19 (le_refl 19)]
  exact bfsChain_final heap pos v hchain hpinj hvinj

theorem foldl_addNew_all_mem : ∀ (l acc : List String),
    (∀ x ∈ l, x ∈ acc) → l.foldl addNew acc = acc := by
  intro l
  induction l with
  | nil => intro acc _; rfl
  | cons a l ih =>
    intro acc h
    rw [List.foldl_cons]
    have ha : addNew acc a = acc := by
      unfold addNew
      rw [if_pos (h a (List.mem_cons_self a l))]
    rw [ha]
    exact ih acc (fun x hx => h x (List.mem_cons_of_mem a hx))

theorem foldl_addNew_fresh : ∀ (l acc : List String), l.Nodup →
    (∀ x ∈ l, x ∉ acc) → l.foldl addNew acc = acc ++ l := by
  intro l
  induction l with
  | nil => intro acc _ _; simp
  | cons a l ih =>
    intro acc hnd h
    rw [List.foldl_cons]
    have ha : addNew acc a = acc ++ [a] := by
      unfold addNew
      rw [if_neg (h a (List.mem_cons_self a l))]
    rw [ha, ih (acc ++ [a]) (List.Nodup.of_cons hnd)]
    · simp
    · intro x hx
      simp only [List.mem_append, List.mem_singleton]
      rintro (hacc | rfl)
      · exact h x (List.mem_cons_of_mem a hx) hacc
      · exact (List.nodup_cons.mp hnd).1 hx

theorem flatten_singletons {α β : Type} (l : List α) (g : α → β) :
    (l.map (fun i => [g i])).flatten = l.map g := by
  induction l with
  | nil => rfl
  | cons a l ih => simp [ih]

theorem chainUnique (v : Nat → String)
    (hvinj : ∀ i, i ≤ 20 → ∀ i2, i2 ≤ 20 → v i = v i2 → i = i2) :
    ((List.range 20).map v ++
      (List.range 20).map (fun i => v (i + 1))).foldl addNew [] =
      (List.range 21).map v := by
  rw [List.foldl_append]
  have hkeys : ((List.range 20).map v).foldl addNew [] =
      (List.range 20).map v := by
    have := foldl_addNew_fresh ((List.range 20).map v) []
      (List.Nodup.map_on
        (fun i hi i2 hi2 hv => hvinj i (by
          have := List.mem_range.mp hi
          omega) i2 (by
          have := List.mem_range.mp hi2
          omega) hv)
        (List.nodup_range 20))
      (fun x _ hx => List.not_mem_nil x hx)
    simpa using this
  rw [hkeys]
  have hsplit : (List.range 20).map (fun i => v (i + 1)) =
      (List.range 19).map (fun i => v (i + 1)) ++ [v 20] := by
    rw [show List.range 20 = List.range 19 ++ [19] from List.range_succ 19,
      List.map_append]
    rfl
  rw [hsplit, List.foldl_append]
  have hfirst : ((List.range 19).map (fun i => v (i + 1))).foldl addNew
      ((List.range 20).map v) = (List.range 20).map v := by
    apply foldl_addNew_all_mem
    intro x hx
    rcases List.mem_map.mp hx with ⟨i, hi, rfl⟩
    have hi2 : i < 19 := List.mem_range.mp hi
    exact List.mem_map.mpr ⟨i + 1, List.mem_range.mpr (by omega), rfl⟩
  rw [hfirst]
  have hlast : addNew ((List.range 20).map v) (v 20) =
      (List.range 20).map v ++ [v 20] := by
    unfold addNew
    rw [if_neg]
    intro hc
    rcases List.mem_map.mp hc with ⟨i, hi, hv⟩
    have hi2 : i < 20 := List.mem_range.mp hi
    have := hvinj i (by omega) 20 (by omega) hv
    omega
  rw [show (([v 20].foldl addNew ((List.range 20).map v))) =
      addNew ((List.range 20).map v) (v 20) from rfl]
  rw [hlast]
  rw [show List.range 21 = List.range 20 ++ [20] from List.range_succ 20,
    List.map_append]
  rfl

theorem chain_print_graph (v : Nat → String) (vo : Option (List String))
    (hvinj : ∀ i, i ≤ 20 → ∀ i2, i2 ≤ 20 → v i = v i2 → i = i2) :
    print_graph_viz
        ((List.range 20).map (fun i => (v i, GVal.vlist [v (i + 1)])))
        vo none none true =
      .ok { nodes := (((List.range 21).map v).insertionSort strLe).map
              (fun n => GNode.mk n n),
            edges := (List.range 20).map (fun i => Edge.mk (v i) (v (i + 1))),
            visitedOrder := (vo.getD []).filter
              (fun x => x ∈ (List.range 21).map v),
            revisitedNodes := [],
            cycleEdges := [],
            truncated := true } := by
  have hany : ((List.range 20).map
      (fun i => (v i, GVal.vlist [v (i + 1)]))).any
      (fun p => p.2.isInt) = false := by
    rw [List.any_eq_false]
    intro x hx
    rcases List.mem_map.mp hx with ⟨i, _, rfl⟩
    simp [GVal.isInt]
  have hkeys : ((List.range 20).map
      (fun i => (v i, GVal.vlist [v (i + 1)]))).map Prod.fst =
      (List.range 20).map v := by
    rw [List.map_map]
    exact List.map_congr_left (fun i _ => rfl)
  have hvals : ((List.range 20).map
      (fun i => (v i, GVal.vlist [v (i + 1)]))).map (fun p => p.2.asList) =
      (List.range 20).map (fun i => [v (i + 1)]) := by
    rw [List.map_map]
    exact List.map_congr_left (fun i _ => rfl)
  have hcu : collectUnique ((List.range 20).map
      (fun i => (v i, GVal.vlist [v (i + 1)]))) =
      .ok ((List.range 21).map v) := by
    unfold collectUnique
    rw [if_neg (by simp [hany])]
    rw [hkeys, hvals, flatten_singletons, chainUnique v hvinj]
  have hedges : buildEdges ((List.range 20).map
      (fun i => (v i, GVal.vlist [v (i + 1)]))) ((List.range 21).map v) =
      (List.range 20).map (fun i => Edge.mk (v i) (v (i + 1))) := by
    unfold buildEdges
    rw [List.map_map]
    have hcong : (List.range 20).map
        ((fun p : String × GVal =>
          if p.1 ∈ (List.range 21).map v then
            (p.2.asList.filter (fun w => w ∈ (List.range 21).map v)).map
              (fun w => Edge.mk p.1 w)
          else []) ∘ (fun i => (v i, GVal.vlist [v (i + 1)]))) =
        (List.range 20).map (fun i => [Edge.mk (v i) (v (i + 1))]) := by
      apply List.map_congr_left
      intro i hi
      have hi2 : i < 20 := List.mem_range.mp hi
      have hmemi : v i ∈ (List.range 21).map v :=
        List.mem_map.mpr ⟨i, List.mem_range.mpr (by omega), rfl⟩
      have hmemi1 : v (i + 1) ∈ (List.range 21).map v :=
        List.mem_map.mpr ⟨i + 1, List.mem_range.mpr (by omega), rfl⟩
      show (if v i ∈ (List.range 21).map v then _ else []) = _
      rw [if_pos hmemi]
      show ([v (i + 1)].filter (fun w => w ∈ (List.range 21).map v)).map
        (fun w => Edge.mk (v i) w) = _
      rw [List.filter_singleton, decide_eq_true hmemi1]
      rfl
    rw [hcong, flatten_singletons]
  unfold print_graph_viz
  rw [hcu]
  dsimp only
  rw [hedges]
  rfl

/-- C1 amended: for a pointer-linked chain of length 25 (distinct node
objects with distinct displayable values) discovered by `dump_viz`
through its pointer fallback, the emitted payload has node count 21
(the 20 visited nodes plus the 21st node referenced by the cut-off
edge), `truncated = true`, and the last emitted edge points to that
21st node, which DOES appear in the emitted node list. -/
theorem c1_chain25_truncation (heap : Heap) (pos : Nat → Nat)
    (v : Nat → String)
    (hchain : straightChain25 heap pos v)
    (hpinj : ∀ i, i ≤ 20 → ∀ i2, i2 ≤ 20 → pos i = pos i2 → i = i2)
    (hvinj : ∀ i, i ≤ 20 → ∀ i2, i2 ≤ 20 → v i = v i2 → i = i2) :
    ∃ p, dump_viz [("head", PyVal.obj (pos 0))] heap = .ok (some p, heap) ∧
      p.nodes.length = 21 ∧ p.truncated = true ∧
      p.edges.getLast? = some (Edge.mk (v 19) (v 20)) ∧
      v 20 ∈ p.nodes.map GNode.id := by
  have hattr : hasNodeAttrs (heap (pos 0)) = true := by
    unfold hasNodeAttrs
    rw [(hchain 0 (by omega)).2.2.2.2]
    simp
  have hroots : collectRoots [("head", PyVal.obj (pos 0))] heap = [pos 0] := by
    unfold collectRoots
    rw [List.foldl_cons, List.foldl_nil]
    dsimp only
    rw [if_pos hattr, if_pos (by rfl : isRootName "head" = true)]
  have hrun := bfsChain_run heap pos v hchain hpinj hvinj
  have hdisc : discover [("head", PyVal.obj (pos 0))] heap =
      .ok (some ((List.range 20).map
        (fun i => (v i, GVal.vlist [v (i + 1)]))), true, heap) := by
    unfold discover
    rw [if_pos (by rfl :
      pyFalsyDict (discoveredDict [("head", PyVal.obj (pos 0))]) = true)]
    rw [hroots]
    dsimp only
    rw [show (⟨heap, [pos 0], [pos 0], [], false⟩ : BfsSt) =
      bfsStAt heap pos v 0 from rfl]
    rw [show MAX_NODES = 20 from rfl]
    rw [hrun]
    dsimp only
    unfold toGValDict
    rw [List.map_map]
    rfl
  have hfalsy : pyFalsyDict (some ((List.range 20).map
      (fun i => (v i, GVal.vlist [v (i + 1)])))) = false := rfl
  have hdump : dump_viz [("head", PyVal.obj (pos 0))] heap =
      .ok (some (GraphPayload.mk
              ((((List.range 21).map v).insertionSort strLe).map
                (fun n => GNode.mk n n))
              ((List.range 20).map (fun i => Edge.mk (v i) (v (i + 1))))
              [] [] [] true), heap) := by
    unfold dump_viz
    rw [hdisc]
    dsimp only
    rw [if_neg (by simp [hfalsy])]
    rw [show visitedHint [("head", PyVal.obj (pos 0))] = none from rfl]
    rw [chain_print_graph v none hvinj]
    rfl
  refine ⟨_, hdump, ?_, rfl, ?_, ?_⟩
  · simp only [List.length_map, List.length_insertionSort, List.length_range]
  · rw [show List.range 20 = List.range 19 ++ [19] from List.range_succ 19,
      List.map_append,
      show List.map (fun i => Edge.mk (v i) (v (i + 1))) [19] =
        [Edge.mk (v 19) (v 20)] from rfl,
      List.getLast?_concat]
  · simp only [List.map_map]
    have hmapid : List.map (GNode.id ∘ fun n => GNode.mk n n)
        (((List.range 21).map v).insertionSort strLe) =
        ((List.range 21).map v).insertionSort strLe := List.map_id _
    rw [hmapid]
    exact (List.perm_insertionSort strLe _).mem_iff.mpr
      (List.mem_map.mpr ⟨20, List.mem_range.mpr (by omega), rfl⟩)

/-- C1 counterexample: on a concrete 25-node chain, the payload
emitted through `dump_viz` has 21 nodes (not 20), and the last edge's
target IS in the emitted node list, contradicting the claim. -/
theorem c1_claim_fails_on_chain25 :
    ¬ (∀ (p : GraphPayload) (h : Heap),
        dump_viz [("head", PyVal.obj 0)] heap25 = .ok (some p, h) →
        p.nodes.length = 20 ∧ p.truncated = true ∧
        ∀ e, p.edges.getLast? = some e → e.dst ∉ p.nodes.map GNode.id) := by
  intro hall
  have h := hall _ _ rfl
  exact absurd h.1 (by decide)

/-- C1 witness: the amended theorem applied to the concrete 25-node
chain at addresses 0..24 with values "v0".."v24". -/
theorem c1_witness :
    ∃ p, dump_viz [("head", PyVal.obj 0)] heap25 = .ok (some p, heap25) ∧
      p.nodes.length = 21 ∧ p.truncated = true ∧
      p.edges.getLast? = some (Edge.mk "v19" "v20") ∧
      "v20" ∈ p.nodes.map GNode.id :=
  c1_chain25_truncation heap25 (fun i => i) (fun i => "v" ++ toString i)
    (by unfold straightChain25; decide) (by decide) (by decide)
